import Mathlib

/-!
Shallow embedding of `src/main.cc`: a replicated, partitioned sparse-matrix
construction demo for a migratory-thread machine.

Modelling conventions:
* `Index_t`/`Scalar_t` are C `long`; we model them as `Int`, with C++ truncated
  division and remainder (`Int.tdiv` / `Int.tmod`).
* `NODELETS()` (the partition count) is an ambient runtime constant; every
  embedded function takes it as an explicit parameter `P`.
* The 2-D storage obtained from `mw_malloc2d` is modelled as a total map
  `Store : Index_t → Index_t → Row_t` from (partition, slot) to the memory
  content at that location; the base-pointer table is modelled by the
  opaque numeric base address `rows_addr` on which `nodelet_addr` performs
  its pointer arithmetic.  Raw (not yet constructed) memory contents are a
  parameter, so that writes beyond the constructed region stay visible.
* The replicated `Matrix_t` object (allocated by `repl_new::operator new`
  via `mw_mallocrepl`) is modelled as the map `copies` from nodelet id to
  the copy of the object on that nodelet; `memcpy(mw_get_nth(this,i), ...)`
  becomes a pointwise overwrite of copy `i`.
-/

/-- Source: `typedef std::vector<std::tuple<Index_t, Scalar_t>> Row_t;`
(`Index_t` and `Scalar_t` are both `typedef long`, modelled as `Int`). -/
abbrev Row_t := List (Int × Int)

/-- The partitioned 2-D storage: memory content at (nodelet, slot). -/
abbrev Store := Int → Int → Row_t

/-- Source: `static inline Index_t n_map(Index_t i) { return i % NODELETS(); }`
(C++ `%` on `long` truncates toward zero, i.e. `Int.tmod`). -/
def n_map (P i : Int) : Int := Int.tmod i P

/-- Source: `static inline Index_t r_map(Index_t i) { return i / NODELETS(); }`
(C++ `/` on `long` truncates toward zero, i.e. `Int.tdiv`). -/
def r_map (P i : Int) : Int := Int.tdiv i P

/-- The fields of `class Matrix_t` (one copy of the replicated object). -/
structure Matrix_t where
  nrows_ : Int
  nrows_per_nodelet_ : Int
  /-- the value of the `rows_` pointer (base address of the `mw_malloc2d`
  pointer table), on which `nodelet_addr` does its pointer arithmetic -/
  rows_addr : Int
deriving DecidableEq

/-- One push_back: `tmpRow.push_back(std::make_tuple(c,v));` -/
def Row_t.push (r : Row_t) (c : Int) (v : Int) : Row_t := r ++ [(c, v)]

/-- The local `tmpRow` assembled by `Matrix_t::build`: starting from an empty
vector, push_back the even-pattern entries when `row_idx % 2 == 0`, the
odd-pattern entries otherwise. -/
def tmpRow (row_idx : Int) : Row_t :=
  if Int.tmod row_idx 2 = 0 then
    (((((((Row_t.push [] 0 1).push 3 1).push 5 1).push 7 1).push 12
        1).push 14 1).push 27 1).push 31 1
  else
    ((((((Row_t.push [] 1 1).push 7 1).push 10 1).push 14 1).push 18
        1).push 27 1).push 28 1

/-- One iteration of the copy loop in `Matrix_t::build`:
`rowPtr->push_back(*it)` where `rowPtr = rows_[n_map(row_idx)] + r_map(row_idx)`. -/
def pushEntry (P row_idx : Int) (e : Int × Int) (st : Store) : Store :=
  fun p s =>
    if p = n_map P row_idx ∧ s = r_map P row_idx then st p s ++ [e] else st p s

/-- Source: `void Matrix_t::build(Index_t row_idx)`: assemble `tmpRow`, then append
its entries one by one to the row container at
`rows_[n_map(row_idx)] + r_map(row_idx)`. -/
def Matrix_t.build (P : Int) (st : Store) (row_idx : Int) : Store :=
  (tmpRow row_idx).foldl (fun acc e => pushEntry P row_idx e acc) st

/-- Source: `Index_t * Matrix_t::nodelet_addr(Index_t i)`:
`return (Index_t *)(rows_ + n_map(i));` — pointer arithmetic only, no
dereference and no mutation. -/
def Matrix_t.nodelet_addr (P : Int) (m : Matrix_t) (i : Int) : Int :=
  m.rows_addr + n_map P i

/-- The body of `Matrix_t::allocateRows(i)` for one nodelet: the loop
`for (row_idx = 0; row_idx < nrows_per_nodelet_; ++row_idx)
   new(rows_[i] + row_idx) Row_t();`
unrolled by fuel `n` (slots `0, 1, ..., n-1` are default-constructed empty). -/
def allocLoop (mem : Int → Row_t) : Nat → (Int → Row_t)
  | 0 => mem
  | Nat.succ k => fun s => if s = (k : Int) then ([] : Row_t) else allocLoop mem k s

/-- The spawn loop in the constructor:
`for (i = 0; i < NODELETS(); ++i) { cilk_migrate_hint(rows_ + i); cilk_spawn allocateRows(i); }`
— every nodelet `0, 1, ..., n-1` runs `allocateRows` on its own block
(`cap` slots each); the tasks touch disjoint blocks, so the joined result
is the pointwise combination. -/
def allocAll (cap : Int) (mem0 : Store) : Nat → Store
  | 0 => mem0
  | Nat.succ k => fun p =>
      if p = (k : Int) then allocLoop (mem0 p) cap.toNat
      else allocAll cap mem0 k p

/-- One iteration of the replication loop in the constructor:
`memcpy(mw_get_nth(this, i), mw_get_nth(this, 0), sizeof(*this));` -/
def replCopy (copies : Int → Matrix_t) (i : Int) : Int → Matrix_t :=
  fun j => if j = i then copies 0 else copies j

/-- The replication loop `for (i = 1; i < NODELETS(); ++i) memcpy(...)`,
unrolled by fuel: after `replLoop copies n`, copies `1, ..., n` hold the
value of copy `0`. -/
def replLoop (copies : Int → Matrix_t) : Nat → (Int → Matrix_t)
  | 0 => copies
  | Nat.succ k => replCopy (replLoop copies k) ((k : Int) + 1)

/-- The whole replicated state: the `P` copies of the `Matrix_t` object
(replicated via `mw_mallocrepl`) plus the partitioned storage. -/
structure ReplState where
  copies : Int → Matrix_t
  store : Store

/-- Source: `Matrix_t::Matrix_t(Index_t nrows)` followed by `Matrix_t::create`:
initialize `nrows_`, compute `nrows_per_nodelet_ = r_map(nrows_) + n_map(nrows_)`,
allocate the 2-D storage (base address `addr`; `raw` is the garbage content
of the replicated allocation on nodelets other than 0, `mem0` the raw
content of the 2-D storage), memcpy the object to every other nodelet,
then default-construct every row slot on every nodelet. -/
def Matrix_t.create (P nrows addr : Int) (raw : Int → Matrix_t)
    (mem0 : Store) : ReplState :=
  let cb : Matrix_t :=
    { nrows_ := nrows
      nrows_per_nodelet_ := r_map P nrows + n_map P nrows
      rows_addr := addr }
  let copies0 : Int → Matrix_t := fun j => if j = 0 then cb else raw j
  { copies := replLoop copies0 (P - 1).toNat
    store := allocAll (r_map P nrows + n_map P nrows) mem0 P.toNat }

/-- Source: `cilk_spawn A->build(row_idx)` at the `ReplState` level: `build` reads the
replicated object (any copy — they are identical) and mutates only the
partitioned storage. -/
def ReplState.build (P : Int) (s : ReplState) (row_idx : Int) : ReplState :=
  { copies := s.copies, store := Matrix_t.build P s.store row_idx }

/-- Reading back row `i`: the container at `rows_[n_map(i)] + r_map(i)`. -/
def readRow (P : Int) (st : Store) (i : Int) : Row_t :=
  st (n_map P i) (r_map P i)

/-- Predicate `Interleave xs ys zs`: `zs` is an interleaving of `xs` and `ys`
preserving the relative order within each. -/
inductive Interleave {α : Type} : List α → List α → List α → Prop
  | nil : Interleave [] [] []
  | left {x : α} {xs ys zs : List α} :
      Interleave xs ys zs → Interleave (x :: xs) ys (x :: zs)
  | right {y : α} {xs ys zs : List α} :
      Interleave xs ys zs → Interleave xs (y :: ys) (y :: zs)

/-- Running the steps of a list in sequence. -/
def runSteps {σ : Type} (l : List (σ → σ)) (x : σ) : σ :=
  l.foldl (fun s f => f s) x

/-! ### Characterizations of the loops -/

theorem allocLoop_eq (mem : Int → Row_t) (n : Nat) (s : Int) :
    allocLoop mem n s = if 0 ≤ s ∧ s < (n : Int) then [] else mem s := by
  induction n with
  | zero =>
      simp only [allocLoop]
      split_ifs with h
      · exfalso; omega
      · rfl
  | succ k ih =>
      simp only [allocLoop, ih]
      split_ifs <;> first
        | rfl
        | omega

theorem allocAll_eq (cap : Int) (hcap : 0 ≤ cap) (mem0 : Store) (n : Nat) (p s : Int) :
    allocAll cap mem0 n p s =
      if 0 ≤ p ∧ p < (n : Int) ∧ 0 ≤ s ∧ s < cap
      then [] else mem0 p s := by
  have hc : ((cap.toNat : Nat) : Int) = cap := by omega
  induction n with
  | zero =>
      simp only [allocAll]
      split_ifs with h
      · exfalso; omega
      · rfl
  | succ k ih =>
      simp only [allocAll]
      by_cases hp : p = (k : Int)
      · simp only [if_pos hp, allocLoop_eq, hc]
        split_ifs <;> first
          | rfl
          | omega
      · simp only [if_neg hp, ih]
        split_ifs <;> first
          | rfl
          | omega

theorem replLoop_zero (c : Int → Matrix_t) (n : Nat) : replLoop c n 0 = c 0 := by
  induction n with
  | zero => rfl
  | succ k ih =>
      have h : (0 : Int) ≠ ((k : Int) + 1) := by omega
      simp [replLoop, replCopy, h, ih]

theorem replLoop_eq (c : Int → Matrix_t) (n : Nat) (j : Int) :
    replLoop c n j = if 1 ≤ j ∧ j ≤ (n : Int) then c 0 else c j := by
  induction n with
  | zero =>
      simp only [replLoop]
      split_ifs with h
      · exfalso; omega
      · rfl
  | succ k ih =>
      simp only [replLoop, replCopy, ih, replLoop_zero]
      split_ifs <;> first
        | rfl
        | omega

/-! ### Characterizations of `create` -/

theorem create_copies_eq (P nrows addr : Int) (raw : Int → Matrix_t)
    (mem0 : Store) (hP : 0 < P) (j : Int) (h0 : 0 ≤ j) (hj : j < P) :
    (Matrix_t.create P nrows addr raw mem0).copies j =
      { nrows_ := nrows
        nrows_per_nodelet_ := r_map P nrows + n_map P nrows
        rows_addr := addr } := by
  simp only [Matrix_t.create, replLoop_eq]
  split_ifs <;> first
    | rfl
    | omega

theorem create_store_eq (P nrows addr : Int) (raw : Int → Matrix_t)
    (mem0 : Store) (hP : 0 < P) (hN : 0 ≤ nrows) (p s : Int) :
    (Matrix_t.create P nrows addr raw mem0).store p s =
      if 0 ≤ p ∧ p < P ∧ 0 ≤ s ∧ s < r_map P nrows + n_map P nrows
      then [] else mem0 p s := by
  have hcap : 0 ≤ r_map P nrows + n_map P nrows := by
    have h1 : 0 ≤ r_map P nrows := Int.tdiv_nonneg hN (le_of_lt hP)
    have h2 : 0 ≤ n_map P nrows := Int.tmod_nonneg _ hN
    omega
  simp only [Matrix_t.create, allocAll_eq _ hcap]
  split_ifs <;> first
    | rfl
    | omega

/-! ### Characterization of `build` -/

theorem pushLoop_apply (P row : Int) (l : Row_t) (st : Store) (p s : Int) :
    (l.foldl (fun acc e => pushEntry P row e acc) st) p s =
      if p = n_map P row ∧ s = r_map P row then st p s ++ l else st p s := by
  induction l generalizing st with
  | nil => simp
  | cons e t ih =>
      simp only [List.foldl_cons, ih, pushEntry]
      split_ifs with h
      · simp
      · rfl

theorem build_apply (P : Int) (st : Store) (row p s : Int) :
    Matrix_t.build P st row p s =
      if p = n_map P row ∧ s = r_map P row then st p s ++ tmpRow row
      else st p s := by
  simp only [Matrix_t.build, pushLoop_apply]

theorem readRow_build_self (P : Int) (st : Store) (row : Int) :
    readRow P (Matrix_t.build P st row) row = readRow P st row ++ tmpRow row := by
  simp [readRow, build_apply]

theorem build_frame (P : Int) (st : Store) (row p s : Int)
    (h : ¬ (p = n_map P row ∧ s = r_map P row)) :
    Matrix_t.build P st row p s = st p s := by
  simp [build_apply, h]

/-! ### The literal entry patterns -/

theorem tmpRow_even {i : Int} (h : Int.tmod i 2 = 0) :
    tmpRow i = [(0, 1), (3, 1), (5, 1), (7, 1), (12, 1), (14, 1), (27, 1), (31, 1)] := by
  simp [tmpRow, h, Row_t.push]

theorem tmpRow_odd {i : Int} (h : ¬ Int.tmod i 2 = 0) :
    tmpRow i = [(1, 1), (7, 1), (10, 1), (14, 1), (18, 1), (27, 1), (28, 1)] := by
  simp [tmpRow, h, Row_t.push]

/-! ### Arithmetic facts about the placement maps -/

/-- Same (partition, slot) pair implies same logical index: `n_map`/`r_map`
are collision-free. -/
theorem nr_map_inj {P i j : Int} (h1 : n_map P i = n_map P j)
    (h2 : r_map P i = r_map P j) : i = j := by
  have ei := Int.tmod_add_tdiv i P
  have ej := Int.tmod_add_tdiv j P
  simp only [n_map, r_map] at h1 h2
  rw [← ei, h1, h2, ej]

theorem n_map_nonneg {P i : Int} (h0 : 0 ≤ i) : 0 ≤ n_map P i :=
  Int.tmod_nonneg _ h0

theorem n_map_lt {P i : Int} (hP : 0 < P) : n_map P i < P :=
  Int.tmod_lt_of_pos _ hP

theorem r_map_nonneg {P i : Int} (hP : 0 < P) (h0 : 0 ≤ i) : 0 ≤ r_map P i :=
  Int.tdiv_nonneg h0 (le_of_lt hP)

/-- The slot of any in-range index is strictly below the capacity
`r_map(N) + n_map(N)` computed by the constructor. -/
theorem slot_lt_capacity {P i nrows : Int} (hP : 0 < P) (h0 : 0 ≤ i)
    (hi : i < nrows) : r_map P i < r_map P nrows + n_map P nrows := by
  by_contra hcon
  push_neg at hcon
  have ei := Int.tmod_add_tdiv i P
  have eN := Int.tmod_add_tdiv nrows P
  have hr0 : 0 ≤ Int.tmod i P := Int.tmod_nonneg _ h0
  have hR0 : 0 ≤ Int.tmod nrows P := Int.tmod_nonneg _ (le_trans h0 (le_of_lt hi))
  have hRP : Int.tmod nrows P < P := Int.tmod_lt_of_pos _ hP
  simp only [r_map, n_map] at hcon
  have h1 : P * (Int.tdiv nrows P + Int.tmod nrows P) ≤ P * Int.tdiv i P :=
    mul_le_mul_of_nonneg_left hcon (le_of_lt hP)
  have h2 : Int.tmod nrows P ≤ P * Int.tmod nrows P :=
    le_mul_of_one_le_left hR0 hP
  have h3 : P * (Int.tdiv nrows P + Int.tmod nrows P)
      = P * Int.tdiv nrows P + P * Int.tmod nrows P := by ring
  omega

/-- The capacity `r_map(N) + n_map(N)` allocated by the constructor is at
least `ceil(N/P)`. -/
theorem ceil_le_capacity {P nrows : Int} (hP : 0 < P) (hN : 0 ≤ nrows) :
    Int.tdiv (nrows + P - 1) P ≤ r_map P nrows + n_map P nrows := by
  have hQ0 : 0 ≤ Int.tdiv nrows P := Int.tdiv_nonneg hN (le_of_lt hP)
  have hR0 : 0 ≤ Int.tmod nrows P := Int.tmod_nonneg _ hN
  have hRP : Int.tmod nrows P < P := Int.tmod_lt_of_pos _ hP
  have eN : Int.tmod nrows P + P * Int.tdiv nrows P = nrows := Int.tmod_add_tdiv nrows P
  have hcast : Int.tdiv (nrows + P - 1) P = (nrows + P - 1) / P :=
    Int.tdiv_eq_ediv (by omega) (le_of_lt hP)
  rw [hcast]
  simp only [r_map, n_map]
  by_cases hR : Int.tmod nrows P = 0
  · have hsplit : nrows + P - 1 = (P - 1) + P * Int.tdiv nrows P := by omega
    rw [hsplit, Int.add_mul_ediv_left _ _ (by omega : P ≠ 0),
      Int.ediv_eq_zero_of_lt (by omega) (by omega)]
    omega
  · have hsplit : nrows + P - 1
        = (Int.tmod nrows P - 1) + P * (Int.tdiv nrows P + 1) := by
      have : P * (Int.tdiv nrows P + 1) = P * Int.tdiv nrows P + P := by ring
      omega
    rw [hsplit, Int.add_mul_ediv_left _ _ (by omega : P ≠ 0),
      Int.ediv_eq_zero_of_lt (by omega) (by omega)]
    omega

/-- Counting the residue-class fiber: among `0, ..., N-1` exactly
`N / P` (+1 when `k < N % P`) indices have residue `k`. -/
theorem card_range_mod (Pn : Nat) (hP : 0 < Pn) (k : Nat) (hk : k < Pn) (Nn : Nat) :
    ((Finset.range Nn).filter (fun i => i % Pn = k)).card
      = Nn / Pn + if k < Nn % Pn then 1 else 0 := by
  induction Nn with
  | zero => simp
  | succ N ih =>
      rw [Finset.range_succ, Finset.filter_insert]
      have hrlt : N % Pn < Pn := Nat.mod_lt _ hP
      have hNeq : Pn * (N / Pn) + N % Pn = N := Nat.div_add_mod N Pn
      have hsucc : ((N + 1) / Pn = N / Pn + 1 ∧ (N + 1) % Pn = 0 ∧ N % Pn + 1 = Pn)
          ∨ ((N + 1) / Pn = N / Pn ∧ (N + 1) % Pn = N % Pn + 1 ∧ N % Pn + 1 < Pn) := by
        by_cases hcase : N % Pn + 1 = Pn
        · left
          have hN1 : N + 1 = Pn * (N / Pn + 1) := by
            have h : Pn * (N / Pn + 1) = Pn * (N / Pn) + Pn := by ring
            omega
          rw [hN1, Nat.mul_div_cancel_left _ hP, Nat.mul_mod_right]
          exact ⟨rfl, rfl, hcase⟩
        · right
          have hN1 : N + 1 = (N % Pn + 1) + Pn * (N / Pn) := by omega
          refine ⟨?_, ?_, by omega⟩
          · rw [hN1, Nat.add_mul_div_left _ _ hP, Nat.div_eq_of_lt (by omega)]
            omega
          · rw [hN1, Nat.add_mul_mod_self_left, Nat.mod_eq_of_lt (by omega)]
      by_cases hNk : N % Pn = k
      · rw [if_pos hNk, Finset.card_insert_of_not_mem (by simp), ih]
        rcases hsucc with ⟨h1, h2, h3⟩ | ⟨h1, h2, h3⟩ <;> rw [h1, h2] <;>
          split_ifs <;> omega
      · rw [if_neg hNk, ih]
        rcases hsucc with ⟨h1, h2, h3⟩ | ⟨h1, h2, h3⟩ <;> rw [h1, h2] <;>
          split_ifs <;> omega

/-- When `P` does not divide `N` exactly, the ceiling `(N + P - 1) / P` is
one more than the floor. -/
theorem ceil_div_of_mod_pos {Nn Pn : Nat} (hP : 0 < Pn) (hR : 0 < Nn % Pn) :
    (Nn + Pn - 1) / Pn = Nn / Pn + 1 := by
  have hNeq : Pn * (Nn / Pn) + Nn % Pn = Nn := Nat.div_add_mod Nn Pn
  have hrlt : Nn % Pn < Pn := Nat.mod_lt _ hP
  have hsplit : Nn + Pn - 1 = (Nn % Pn - 1) + Pn * (Nn / Pn + 1) := by
    have h : Pn * (Nn / Pn + 1) = Pn * (Nn / Pn) + Pn := by ring
    omega
  rw [hsplit, Nat.add_mul_div_left _ _ hP, Nat.div_eq_of_lt (by omega)]
  omega

/-- Bridge between the `Int`-valued `n_map` and `Nat` remainders. -/
theorem n_map_natCast (Pn i : Nat) :
    n_map (Pn : Int) (i : Int) = ((i % Pn : Nat) : Int) := by
  simp only [n_map]
  rw [Int.tmod_eq_emod (by omega) (by omega)]
  omega

/-! ### Interleavings of two concurrent tasks

`cilk_spawn`/`cilk_sync` run the two `build` calls of the driver
concurrently; each task is a sequence of single-append steps on the shared
storage, and an execution is an arbitrary interleaving of the two step
sequences. -/

theorem Interleave.append {α : Type} :
    ∀ xs ys : List α, Interleave xs ys (xs ++ ys)
  | [], [] => Interleave.nil
  | [], y :: ys => Interleave.right (Interleave.append [] ys)
  | x :: xs, ys => Interleave.left (Interleave.append xs ys)

theorem Interleave.nil_right {α : Type} : ∀ xs : List α, Interleave xs [] xs
  | [] => Interleave.nil
  | _ :: xs => Interleave.left (Interleave.nil_right xs)

theorem Interleave.append_swap {α : Type} :
    ∀ xs ys : List α, Interleave xs ys (ys ++ xs)
  | xs, [] => Interleave.nil_right xs
  | xs, _ :: ys => Interleave.right (Interleave.append_swap xs ys)

theorem runSteps_cons {σ : Type} (f : σ → σ) (l : List (σ → σ)) (x : σ) :
    runSteps (f :: l) x = runSteps l (f x) := rfl

/-- A step that commutes with every step of a list can be pulled out of a
run of that list. -/
theorem runSteps_comm_single {σ : Type} (g : σ → σ) :
    ∀ (A : List (σ → σ)), (∀ f ∈ A, ∀ x, f (g x) = g (f x)) →
      ∀ x, runSteps A (g x) = g (runSteps A x)
  | [], _, _ => rfl
  | f :: A, h, x => by
      rw [runSteps_cons, runSteps_cons, h f (List.mem_cons_self f A) x,
        runSteps_comm_single g A (fun f' hf' => h f' (List.mem_cons_of_mem _ hf'))]

/-- When every step of `A` commutes with every step of `B`, every
interleaving of `A` and `B` produces the same final state as running `A`
to completion and then `B`. -/
theorem runSteps_interleave {σ : Type} {A B zs : List (σ → σ)}
    (hcomm : ∀ f ∈ A, ∀ g ∈ B, ∀ x, f (g x) = g (f x))
    (h : Interleave A B zs) :
    ∀ x, runSteps zs x = runSteps B (runSteps A x) := by
  induction h with
  | nil => intro x; rfl
  | @left f A' B' zs' _ ih =>
      intro x
      rw [runSteps_cons, runSteps_cons,
        ih (fun f' hf' => hcomm f' (List.mem_cons_of_mem _ hf'))]
  | @right g A' B' zs' hI ih =>
      intro x
      rw [runSteps_cons, runSteps_cons,
        ih (fun f' hf' g' hg' => hcomm f' hf' g' (List.mem_cons_of_mem _ hg')),
        runSteps_comm_single g A'
          (fun f' hf' x' => hcomm f' hf' g (List.mem_cons_self g B') x')]

/-- Two single-append steps aimed at rows with different home nodelets
commute. -/
theorem pushEntry_comm {P i j : Int} (hne : n_map P i ≠ n_map P j)
    (e f : Int × Int) (st : Store) :
    pushEntry P i e (pushEntry P j f st) = pushEntry P j f (pushEntry P i e st) := by
  funext p s
  simp only [pushEntry]
  split_ifs with h1 h2 h2 <;> first
    | rfl
    | (exfalso; exact hne (h2.1 ▸ h1.1.symm ▸ rfl))

/-- The function `build` is exactly the sequential run of its single-append steps. -/
theorem build_runSteps (P : Int) (st : Store) (row : Int) :
    Matrix_t.build P st row = runSteps ((tmpRow row).map (pushEntry P row)) st := by
  simp only [Matrix_t.build, runSteps, List.foldl_map]

/-! ## The claims -/

/-- C1 (counterexample): the claim says the per-partition capacity
equals `ceil(N/P)`; the constructor actually computes
`r_map(N) + n_map(N) = N/P + N%P`.  At `N = 2`, `P = 8` it allocates `2`
slots per partition while `ceil(2/8) = 1`. -/
theorem C1_capacity_counterexample :
    ((Matrix_t.create 8 2 0 (fun _ => ⟨0, 0, 0⟩)
        (fun _ _ => [])).copies 0).nrows_per_nodelet_ = 2
    ∧ Int.tdiv (2 + 8 - 1) 8 = 1
    ∧ (2 : Int) ≠ 1 := by decide

/-- C1 (amended): for every `N ≥ 0`, `P ≥ 1`, the per-partition
capacity computed at creation equals `floor(N/P) + (N mod P)` — at least
`ceil(N/P)`, with equality only when `N mod P ≤ 1` — and the storage
holds `P` groups of exactly that many row slots, each default-constructed
empty. -/
theorem C1_per_partition_capacity (P nrows addr : Int) (raw : Int → Matrix_t)
    (mem0 : Store) (hP : 0 < P) (hN : 0 ≤ nrows) (j : Int) (h0 : 0 ≤ j)
    (hj : j < P) :
    ((Matrix_t.create P nrows addr raw mem0).copies j).nrows_per_nodelet_
        = r_map P nrows + n_map P nrows
    ∧ Int.tdiv (nrows + P - 1) P ≤ r_map P nrows + n_map P nrows
    ∧ (∀ p s : Int, 0 ≤ p → p < P → 0 ≤ s →
        s < r_map P nrows + n_map P nrows →
        (Matrix_t.create P nrows addr raw mem0).store p s = []) := by
  refine ⟨?_, ceil_le_capacity hP hN, ?_⟩
  · rw [create_copies_eq P nrows addr raw mem0 hP j h0 hj]
  · intro p s hp0 hp hs0 hs
    rw [create_store_eq P nrows addr raw mem0 hP hN p s,
      if_pos ⟨hp0, hp, hs0, hs⟩]

theorem C1_per_partition_capacity_witness :
    ((Matrix_t.create 8 16 0 (fun _ => ⟨0, 0, 0⟩)
        (fun _ _ => [])).copies 3).nrows_per_nodelet_
        = r_map 8 16 + n_map 8 16
    ∧ Int.tdiv (16 + 8 - 1) 8 ≤ r_map 8 16 + n_map 8 16
    ∧ (∀ p s : Int, 0 ≤ p → p < 8 → 0 ≤ s → s < r_map 8 16 + n_map 8 16 →
        (Matrix_t.create 8 16 0 (fun _ => ⟨0, 0, 0⟩)
          (fun _ _ => [])).store p s = []) :=
  C1_per_partition_capacity 8 16 0 (fun _ => ⟨0, 0, 0⟩) (fun _ _ => [])
    (by decide) (by decide) 3 (by decide) (by decide)

/-- C2: the walkthrough `N = 16`, `P = 8`: `rowsPerPartition = 2`;
row 2 maps to partition `2 mod 8 = 2`, slot `2 div 8 = 0` and row 13 to
partition `13 mod 8 = 5`, slot `13 div 8 = 1`; after building row 2 of
matrix `A` (even: pattern A) and row 13 of matrix `B` (odd: pattern B),
those rows hold exactly their patterns and every other row of the
respective matrix is empty. -/
theorem C2_walkthrough :
    ((Matrix_t.create 8 16 0 (fun _ => ⟨0, 0, 0⟩)
        (fun _ _ => [])).copies 0).nrows_per_nodelet_ = 2
    ∧ n_map 8 2 = 2 ∧ r_map 8 2 = 0 ∧ n_map 8 13 = 5 ∧ r_map 8 13 = 1
    ∧ readRow 8 (ReplState.build 8 (Matrix_t.create 8 16 0
        (fun _ => ⟨0, 0, 0⟩) (fun _ _ => [])) 2).store 2
      = [(0, 1), (3, 1), (5, 1), (7, 1), (12, 1), (14, 1), (27, 1), (31, 1)]
    ∧ readRow 8 (ReplState.build 8 (Matrix_t.create 8 16 0
        (fun _ => ⟨0, 0, 0⟩) (fun _ _ => [])) 13).store 13
      = [(1, 1), (7, 1), (10, 1), (14, 1), (18, 1), (27, 1), (28, 1)]
    ∧ (∀ i : Int, 0 ≤ i → i < 16 → i ≠ 2 →
        readRow 8 (ReplState.build 8 (Matrix_t.create 8 16 0
          (fun _ => ⟨0, 0, 0⟩) (fun _ _ => [])) 2).store i = [])
    ∧ (∀ i : Int, 0 ≤ i → i < 16 → i ≠ 13 →
        readRow 8 (ReplState.build 8 (Matrix_t.create 8 16 0
          (fun _ => ⟨0, 0, 0⟩) (fun _ _ => [])) 13).store i = []) := by
  refine ⟨by decide, by decide, by decide, by decide, by decide,
    by decide, by decide, ?_, ?_⟩
  · intro i h0 hi hne
    have hkey : ¬ (n_map 8 i = n_map 8 2 ∧ r_map 8 i = r_map 8 2) := by
      rintro ⟨h1, h2⟩
      exact hne (nr_map_inj h1 h2)
    simp only [readRow, ReplState.build]
    rw [build_frame _ _ _ _ _ hkey,
      create_store_eq 8 16 0 _ _ (by decide) (by decide),
      if_pos ⟨n_map_nonneg h0, n_map_lt (by decide),
        r_map_nonneg (by decide) h0, slot_lt_capacity (by decide) h0 hi⟩]
  · intro i h0 hi hne
    have hkey : ¬ (n_map 8 i = n_map 8 13 ∧ r_map 8 i = r_map 8 13) := by
      rintro ⟨h1, h2⟩
      exact hne (nr_map_inj h1 h2)
    simp only [readRow, ReplState.build]
    rw [build_frame _ _ _ _ _ hkey,
      create_store_eq 8 16 0 _ _ (by decide) (by decide),
      if_pos ⟨n_map_nonneg h0, n_map_lt (by decide),
        r_map_nonneg (by decide) h0, slot_lt_capacity (by decide) h0 hi⟩]

/-- C3: `build` appends its pairs to the row container at index `i` in
order, with no deduplication and no sorting: the row grows by exactly the
number of pairs supplied, a subsequent read returns the previous content
followed by exactly that sequence, and every other (partition, slot)
location is unchanged. -/
theorem C3_append_in_order (P : Int) (st : Store) (i : Int) :
    readRow P (Matrix_t.build P st i) i = readRow P st i ++ tmpRow i
    ∧ (readRow P (Matrix_t.build P st i) i).length
        = (readRow P st i).length + (tmpRow i).length
    ∧ ∀ p s : Int, ¬ (p = n_map P i ∧ s = r_map P i) →
        Matrix_t.build P st i p s = st p s := by
  refine ⟨readRow_build_self P st i, ?_, fun p s h => build_frame P st i p s h⟩
  rw [readRow_build_self P st i, List.length_append]

/-- C4: `home(i) = i mod P` and `slot(i) = i div P` are total
functions (they are Lean functions), deterministic, and collision-free on
`[0, N)`; the `home` fibers split `[0, N)` into `P` residue groups each of
size `floor(N/P)` or `ceil(N/P)`. -/
theorem C4_home_slot_partition (Nn Pn : Nat) (hP : 0 < Pn) :
    (∀ i j : Int, 0 ≤ i → i < (Nn : Int) → 0 ≤ j → j < (Nn : Int) →
        n_map (Pn : Int) i = n_map (Pn : Int) j →
        r_map (Pn : Int) i = r_map (Pn : Int) j → i = j)
    ∧ ∀ k : Nat, k < Pn →
        ((Finset.range Nn).filter
            (fun i : Nat => n_map (Pn : Int) (i : Int) = (k : Int))).card = Nn / Pn
        ∨ ((Finset.range Nn).filter
            (fun i : Nat => n_map (Pn : Int) (i : Int) = (k : Int))).card
          = (Nn + Pn - 1) / Pn := by
  constructor
  · exact fun i j _ _ _ _ h1 h2 => nr_map_inj h1 h2
  · intro k hk
    have hfilter : ((Finset.range Nn).filter
          (fun i : Nat => n_map (Pn : Int) (i : Int) = (k : Int)))
        = (Finset.range Nn).filter (fun i => i % Pn = k) := by
      apply Finset.filter_congr
      intro x _
      rw [n_map_natCast]
      exact Nat.cast_inj
    rw [hfilter, card_range_mod Pn hP k hk Nn]
    by_cases hcase : k < Nn % Pn
    · right
      rw [if_pos hcase, ceil_div_of_mod_pos hP (by omega)]
    · left
      rw [if_neg hcase]
      omega

theorem C4_home_slot_partition_witness :
    (∀ i j : Int, 0 ≤ i → i < ((16 : Nat) : Int) → 0 ≤ j →
        j < ((16 : Nat) : Int) →
        n_map ((8 : Nat) : Int) i = n_map ((8 : Nat) : Int) j →
        r_map ((8 : Nat) : Int) i = r_map ((8 : Nat) : Int) j → i = j)
    ∧ ∀ k : Nat, k < 8 →
        ((Finset.range 16).filter
            (fun i : Nat => n_map ((8 : Nat) : Int) (i : Int) = (k : Int))).card
          = 16 / 8
        ∨ ((Finset.range 16).filter
            (fun i : Nat => n_map ((8 : Nat) : Int) (i : Int) = (k : Int))).card
          = (16 + 8 - 1) / 8 :=
  C4_home_slot_partition 16 8 (by decide)

/-- C5: for `0 ≤ i < N` (with `P ≥ 1`) the slot `r_map(i) = i div P`
is strictly below the capacity `nrows_per_nodelet_` stored in every copy
of the object created by `create`, so the access
`rows_[n_map(i)] + r_map(i)` in `build` stays inside the allocated
per-partition block. -/
theorem C5_access_in_bounds (P nrows addr : Int) (raw : Int → Matrix_t)
    (mem0 : Store) (hP : 0 < P) (i : Int) (h0 : 0 ≤ i) (hi : i < nrows)
    (j : Int) (hj0 : 0 ≤ j) (hj : j < P) :
    r_map P i
      < ((Matrix_t.create P nrows addr raw mem0).copies j).nrows_per_nodelet_ := by
  rw [create_copies_eq P nrows addr raw mem0 hP j hj0 hj]
  exact slot_lt_capacity hP h0 hi

theorem C5_access_in_bounds_witness :
    r_map 8 13
      < ((Matrix_t.create 8 16 0 (fun _ => ⟨0, 0, 0⟩)
          (fun _ _ => [])).copies 5).nrows_per_nodelet_ :=
  C5_access_in_bounds 8 16 0 (fun _ => ⟨0, 0, 0⟩) (fun _ _ => [])
    (by decide) 13 (by decide) (by decide) 5 (by decide) (by decide)

/-- C6 (counterexample): the claim says an index outside `[0, N)` is
signaled as a precondition violation; in fact nothing is checked or
signaled.  At `N = 16`, `P = 8`, calling `build` for row `16` silently
appends pattern A to the raw memory at partition `0`, slot `2` — a slot at
the capacity bound, i.e. outside the constructed region — and
`nodelet_addr 16` returns a normal pointer. -/
theorem C6_counterexample :
    ¬ (0 ≤ (16 : Int) ∧ (16 : Int) < 16)
    ∧ (ReplState.build 8 (Matrix_t.create 8 16 0 (fun _ => ⟨0, 0, 0⟩)
        (fun _ _ => [(99, 99)])) 16).store 0 2
      = [(99, 99), (0, 1), (3, 1), (5, 1), (7, 1), (12, 1), (14, 1),
          (27, 1), (31, 1)]
    ∧ ¬ (r_map 8 16 < ((Matrix_t.create 8 16 0 (fun _ => ⟨0, 0, 0⟩)
        (fun _ _ => [(99, 99)])).copies 0).nrows_per_nodelet_)
    ∧ Matrix_t.nodelet_addr 8 ((Matrix_t.create 8 16 0 (fun _ => ⟨0, 0, 0⟩)
        (fun _ _ => [(99, 99)])).copies 0) 16 = 0 := by
  decide

/-- C6 (amended): no range check exists: for every index `i` — in
particular every index outside `[0, N)`, on either side — `build`
silently appends its pattern at `(n_map i, r_map i)` exactly as it would
for an in-range index, and `nodelet_addr` returns the pointer
`rows_ + n_map(i)`; no precondition violation is signaled to the caller
(both are total functions with no error outcome).  For `i ≥ N` the slot
`r_map i` can lie at or beyond the allocated capacity; for `i < 0` the
partition index `n_map i` is itself negative, outside the base-pointer
table. -/
theorem C6_no_range_check (P : Int) (st : Store) (m : Matrix_t) (i : Int) :
    readRow P (Matrix_t.build P st i) i = readRow P st i ++ tmpRow i
    ∧ Matrix_t.nodelet_addr P m i = m.rows_addr + n_map P i :=
  ⟨readRow_build_self P st i, rfl⟩

/-- Any sequence of `build` calls leaves the replicated copies of the
control block untouched. -/
theorem foldl_build_copies (P : Int) (ops : List Int) :
    ∀ s : ReplState, (ops.foldl (ReplState.build P) s).copies = s.copies := by
  induction ops with
  | nil => intro s; rfl
  | cons r t ih => intro s; rw [List.foldl_cons]; exact ih (ReplState.build P s r)

/-- C7: after `create` returns, the copy of the control
block is identical (reading any field from any copy gives the same
value), and no later sequence of `build` operations modifies any copy
(`nodelet_addr` is a pure function in the embedding and writes nothing). -/
theorem C7_replication (P nrows addr : Int) (raw : Int → Matrix_t)
    (mem0 : Store) (hP : 0 < P) (ops : List Int) (p q : Int)
    (hp0 : 0 ≤ p) (hp : p < P) (hq0 : 0 ≤ q) (hq : q < P) :
    (ops.foldl (ReplState.build P)
        (Matrix_t.create P nrows addr raw mem0)).copies p
      = (ops.foldl (ReplState.build P)
          (Matrix_t.create P nrows addr raw mem0)).copies q
    ∧ (ops.foldl (ReplState.build P)
        (Matrix_t.create P nrows addr raw mem0)).copies p
      = (Matrix_t.create P nrows addr raw mem0).copies p := by
  rw [foldl_build_copies]
  constructor
  · rw [create_copies_eq P nrows addr raw mem0 hP p hp0 hp,
      create_copies_eq P nrows addr raw mem0 hP q hq0 hq]
  · rfl

theorem C7_replication_witness :
    (([2, 13] : List Int).foldl (ReplState.build 8)
        (Matrix_t.create 8 16 0 (fun _ => ⟨0, 0, 0⟩)
          (fun _ _ => []))).copies 3
      = (([2, 13] : List Int).foldl (ReplState.build 8)
          (Matrix_t.create 8 16 0 (fun _ => ⟨0, 0, 0⟩)
            (fun _ _ => []))).copies 7
    ∧ (([2, 13] : List Int).foldl (ReplState.build 8)
        (Matrix_t.create 8 16 0 (fun _ => ⟨0, 0, 0⟩)
          (fun _ _ => []))).copies 3
      = (Matrix_t.create 8 16 0 (fun _ => ⟨0, 0, 0⟩)
          (fun _ _ => [])).copies 3 :=
  C7_replication 8 16 0 (fun _ => ⟨0, 0, 0⟩) (fun _ _ => []) (by decide)
    [2, 13] 3 7 (by decide) (by decide) (by decide) (by decide)

/-- C8: populating rows whose home nodelets differ commutes: the two
sequential orders produce identical storage, and every concurrent
interleaving of the append steps of the two tasks produces that same final
storage (hence every row reads the same afterwards). -/
theorem C8_disjoint_homes_commute (P : Int) (st : Store) (i j : Int)
    (hne : n_map P i ≠ n_map P j) :
    Matrix_t.build P (Matrix_t.build P st i) j
        = Matrix_t.build P (Matrix_t.build P st j) i
    ∧ ∀ zs : List (Store → Store),
        Interleave ((tmpRow i).map (pushEntry P i))
          ((tmpRow j).map (pushEntry P j)) zs →
        runSteps zs st = Matrix_t.build P (Matrix_t.build P st i) j := by
  have hcomm : ∀ f ∈ (tmpRow i).map (pushEntry P i),
      ∀ g ∈ (tmpRow j).map (pushEntry P j), ∀ x, f (g x) = g (f x) := by
    intro f hf g hg x
    rcases List.mem_map.mp hf with ⟨e, _, rfl⟩
    rcases List.mem_map.mp hg with ⟨e', _, rfl⟩
    exact pushEntry_comm hne e e' x
  constructor
  · have h1 : runSteps ((tmpRow j).map (pushEntry P j)
          ++ (tmpRow i).map (pushEntry P i)) st
        = runSteps ((tmpRow j).map (pushEntry P j))
            (runSteps ((tmpRow i).map (pushEntry P i)) st) :=
      runSteps_interleave hcomm (Interleave.append_swap _ _) st
    have h2 : runSteps ((tmpRow j).map (pushEntry P j)
          ++ (tmpRow i).map (pushEntry P i)) st
        = runSteps ((tmpRow i).map (pushEntry P i))
            (runSteps ((tmpRow j).map (pushEntry P j)) st) := by
      simp only [runSteps, List.foldl_append]
    simp only [build_runSteps]
    rw [← h1, h2]
  · intro zs hzs
    rw [runSteps_interleave hcomm hzs st, ← build_runSteps, ← build_runSteps]

theorem C8_disjoint_homes_commute_witness :
    Matrix_t.build 8 (Matrix_t.build 8 (fun _ _ => []) 2) 13
      = Matrix_t.build 8 (Matrix_t.build 8 (fun _ _ => []) 13) 2 :=
  (C8_disjoint_homes_commute 8 (fun _ _ => []) 2 13 (by decide)).1

/-- C9: `build` takes no externally supplied entry list (its only
parameter is the row index); the appended entries are fully determined by
the parity of the index: the 8 pattern-A pairs for an even index, the 7
pattern-B pairs for an odd one, in the listed order. -/
theorem C9_parity_determines_pattern (P : Int) (st : Store) (i : Int) :
    readRow P (Matrix_t.build P st i) i =
      readRow P st i ++
        (if Int.tmod i 2 = 0
          then [(0, 1), (3, 1), (5, 1), (7, 1), (12, 1), (14, 1), (27, 1),
              (31, 1)]
          else [(1, 1), (7, 1), (10, 1), (14, 1), (18, 1), (27, 1),
              (28, 1)]) := by
  rw [readRow_build_self]
  by_cases h : Int.tmod i 2 = 0
  · rw [if_pos h, tmpRow_even h]
  · rw [if_neg h, tmpRow_odd h]

/-- C10: `nodelet_addr` depends only on the home nodelet of its
argument: indices with the same `i mod P` yield the same pointer, namely
the address of the base-pointer entry of the partition `rows_ + n_map(i)` with
no slot offset added; it is a pure function and mutates nothing. -/
theorem C10_addr_depends_on_home_only (P : Int) (m : Matrix_t) (i j : Int)
    (h : n_map P i = n_map P j) :
    Matrix_t.nodelet_addr P m i = Matrix_t.nodelet_addr P m j
    ∧ Matrix_t.nodelet_addr P m i = m.rows_addr + n_map P i := by
  constructor
  · simp only [Matrix_t.nodelet_addr, h]
  · rfl

theorem C10_addr_depends_on_home_only_witness :
    Matrix_t.nodelet_addr 8 ⟨16, 2, 0⟩ 2 = Matrix_t.nodelet_addr 8 ⟨16, 2, 0⟩ 10
    ∧ Matrix_t.nodelet_addr 8 ⟨16, 2, 0⟩ 2
      = (⟨16, 2, 0⟩ : Matrix_t).rows_addr + n_map 8 2 :=
  C10_addr_depends_on_home_only 8 ⟨16, 2, 0⟩ 2 10 (by decide)
